import Mathlib

/-!
A shallow embedding of the retrieval pipeline in src/chatbot.py:
tokenizer, chunker, passage extractor, index builder, retriever and
result formatter, together with theorems checking the documented
properties against the embedded code.

Modelling conventions: Python strings are `List Char`; floating point
scores are real numbers; Python `range`, list slices, `sort`,
`Counter` lookups and set intersections are embedded explicitly.
-/

namespace FinanceBot

/-- ASCII whitespace, the characters matched by the regex class used in
the chunker and by `str.strip`. -/
def isSpaceChar (c : Char) : Bool :=
  c = ' ' || c = '\t' || c = '\n' || c = '\r' || c = '\x0b' || c = '\x0c'

/-- The character class of the tokenizer regex: ASCII letters and digits. -/
def isAlnumAscii (c : Char) : Bool :=
  ('a' ≤ c && c ≤ 'z') || ('A' ≤ c && c ≤ 'Z') || ('0' ≤ c && c ≤ '9')

/-- ASCII lowercasing, as `str.lower` acts on ASCII text. -/
def lowerChar (c : Char) : Char :=
  if 'A' ≤ c ∧ c ≤ 'Z' then Char.ofNat (c.toNat + 32) else c

/-- Linear scanner extracting the maximal alphanumeric runs of a string,
as the tokenizer regex does; `cur` holds the run being built, reversed. -/
def tokensAux : List Char → List Char → List (List Char)
  | [], cur => if cur.isEmpty then [] else [cur.reverse]
  | c :: cs, cur =>
    if isAlnumAscii c then tokensAux cs (c :: cur)
    else if cur.isEmpty then tokensAux cs []
    else cur.reverse :: tokensAux cs []

/-- `tokenize` from src/chatbot.py: lowercase the input, then return the
maximal alphanumeric runs in order. -/
def tokenize (s : List Char) : List (List Char) :=
  tokensAux (s.map lowerChar) []

/-- One step of the whitespace normalisation performed by the chunker:
every maximal whitespace run becomes a single space. -/
def collapseWS : List Char → List Char
  | [] => []
  | [c] => if isSpaceChar c then [' '] else [c]
  | c :: c' :: cs =>
    if isSpaceChar c && isSpaceChar c' then collapseWS (c' :: cs)
    else (if isSpaceChar c then ' ' else c) :: collapseWS (c' :: cs)

/-- `str.strip`: drop whitespace from both ends. -/
def pyStrip (l : List Char) : List Char :=
  ((l.dropWhile isSpaceChar).reverse.dropWhile isSpaceChar).reverse

/-- The whitespace normalisation of the chunker: collapse whitespace
runs to one space, then strip the ends. -/
def normalize (text : List Char) : List Char :=
  pyStrip (collapseWS text)

/-- Python `range(start, stop, step)` for a positive step. -/
def pyRange (start stop step : Nat) : List Nat :=
  if _h : 0 < step ∧ start < stop then start :: pyRange (start + step) stop step
  else []
termination_by stop - start
decreasing_by omega

/-- `_chunks` from src/chatbot.py: normalise whitespace, then slide a
window of `size` characters in steps of `max 1 (size - ov)`. -/
def _chunks (text : List Char) (size ov : Nat) : List (List Char) :=
  let t := normalize text
  if t.isEmpty then []
  else (pyRange 0 t.length (max 1 (size - ov))).map (fun i => (t.drop i).take size)

/-- A passage record as built by `load_pdf_passages`. -/
structure Passage where
  source : List Char
  page : Nat
  text : List Char
deriving DecidableEq

/-- A folder entry seen by `load_pdf_passages`: a file name, and either
`none` when the document cannot be read (the `except` branch that skips
the file) or the list of its pages, each page either `none` (page-level
extraction failure, treated as empty text) or its extracted text. -/
structure DocEntry where
  name : List Char
  pages : Option (List (Option (List Char)))
deriving DecidableEq

/-- The passages one page contributes: chunk the page text, drop chunks
that are empty after stripping, store the stripped chunk with the
1-based page number. -/
def pagePassages (name : List Char) (idx0 : Nat) (txt : List Char) : List Passage :=
  ((_chunks txt 800 100).filter (fun c => !(pyStrip c).isEmpty)).map
    (fun c => ⟨name, idx0 + 1, pyStrip c⟩)

/-- The passages of one folder entry: nothing for an unreadable
document, otherwise the per-page passages in page order. -/
def docPassages (d : DocEntry) : List Passage :=
  match d.pages with
  | none => []
  | some pgs => pgs.enum.flatMap (fun ip => pagePassages d.name ip.1 (ip.2.getD []))

/-- `load_pdf_passages` from src/chatbot.py over abstract folder
contents: keep the entries whose lowercased name ends in ".pdf", in
order, and concatenate their passages. -/
def load_pdf_passages (docs : List DocEntry) : List Passage :=
  (docs.filter (fun d => (".pdf".toList).isSuffixOf (d.name.map lowerChar))).flatMap
    docPassages

/-- The distinct tokens of a text, `set(tokenize(text))`. -/
def tokenSet (s : List Char) : Finset (List Char) :=
  (tokenize s).toFinset

/-- The index built by `build_index`. -/
structure Index where
  doc_tokens : List (Finset (List Char))
  df : List Char → Nat
  N : Nat

/-- `df[t] += 1` for every `t` in `toks`, on a `Counter` that reads 0
for absent keys. -/
def dfBump (df : List Char → Nat) (toks : Finset (List Char)) : List Char → Nat :=
  fun t => if t ∈ toks then df t + 1 else df t

/-- One iteration of the `build_index` loop: append the passage's token
set and bump the document frequencies of its distinct tokens. -/
def ixStep (acc : List (Finset (List Char)) × (List Char → Nat)) (p : Passage) :
    List (Finset (List Char)) × (List Char → Nat) :=
  (acc.1 ++ [tokenSet p.text], dfBump acc.2 (tokenSet p.text))

/-- `build_index` from src/chatbot.py. -/
def build_index (passages : List Passage) : Index :=
  let acc := passages.foldl ixStep ([], fun _ => 0)
  ⟨acc.1, acc.2, passages.length⟩

/-- The distinct query tokens, `set(qtokens)`. -/
def qset (query : List Char) : Finset (List Char) :=
  (tokenize query).toFinset

/-- The overlap set of passage `i`: distinct query tokens that occur in
the passage's token set. -/
def overlap (query : List Char) (index : Index) (i : Nat) : Finset (List Char) :=
  qset query ∩ index.doc_tokens.getD i ∅

/-- The idf-lite weight of one token: `log(1 + N / (1 + df[t]))`. -/
noncomputable def idfLite (index : Index) (t : List Char) : ℝ :=
  Real.log (1 + (index.N : ℝ) / (1 + (index.df t : ℝ)))

/-- The inner `score(i)` of `retrieve`: 0 for an empty overlap set, else
the sum of the idf-lite weights over the overlap set. -/
noncomputable def scoreOf (query : List Char) (index : Index) (i : Nat) : ℝ :=
  if overlap query index i = ∅ then 0
  else (overlap query index i).sum (fun t => idfLite index t)

/-- The list `[(score(i), i) for i in range(N)]`. -/
noncomputable def scoredList (query : List Char) (index : Index) : List (ℝ × Nat) :=
  (List.range index.N).map (fun i => (scoreOf query index i, i))

/-- The order realised by `scored.sort(reverse=True)` on `(score, i)`
tuples: descending lexicographic comparison. -/
def descLex (a b : ℝ × Nat) : Prop :=
  b.1 < a.1 ∨ (a.1 = b.1 ∧ b.2 ≤ a.2)

noncomputable instance : DecidableRel descLex := fun a b => by
  unfold descLex; infer_instance

instance : IsTrans (ℝ × Nat) descLex := by
  constructor
  intro a b c hab hbc
  rcases hab with h1 | ⟨h1, h2⟩ <;> rcases hbc with h3 | ⟨h3, h4⟩
  · exact Or.inl (lt_trans h3 h1)
  · exact Or.inl (h3 ▸ h1)
  · exact Or.inl (h1 ▸ h3)
  · exact Or.inr ⟨h1.trans h3, le_trans h4 h2⟩

instance : IsTotal (ℝ × Nat) descLex := by
  constructor
  intro a b
  rcases lt_trichotomy a.1 b.1 with h | h | h
  · exact Or.inr (Or.inl h)
  · rcases Nat.le_total a.2 b.2 with h2 | h2
    · exact Or.inr (Or.inr ⟨h.symm, h2⟩)
    · exact Or.inl (Or.inr ⟨h, h2⟩)
  · exact Or.inl (Or.inl h)

/-- `scored.sort(reverse=True)`: the scored pairs in descending
lexicographic order (all pairs are distinct in their index component, so
this is exactly the Python result). -/
noncomputable def sortDesc (l : List (ℝ × Nat)) : List (ℝ × Nat) :=
  l.insertionSort descLex

/-- The `(score, index)` pairs that survive `scored[:k]` and the
`sc <= 0` skip, in order. -/
noncomputable def rankedIdx (query : List Char) (index : Index) (k : Nat) :
    List (ℝ × Nat) :=
  ((sortDesc (scoredList query index)).take k).filter (fun x => !decide (x.1 ≤ 0))

/-- `retrieve` from src/chatbot.py. -/
noncomputable def retrieve (query : List Char) (passages : List Passage)
    (index : Index) (k : Nat) : List (ℝ × Passage) :=
  if passages = [] then []
  else if tokenize query = [] then []
  else (rankedIdx query index k).map (fun x => (x.1, passages.getD x.2 ⟨[], 0, []⟩))

/-- Replace every newline with a space, as
`text.replace("\n", " ")` does. -/
def replaceNL (l : List Char) : List Char :=
  l.map (fun c => if c = '\n' then ' ' else c)

/-- Decimal rendering of a natural number, for the f-string. -/
def natStr (n : Nat) : List Char :=
  (Nat.repr n).toList

/-- Truncation of a long snippet: keep 400 characters and append the
marker. -/
def truncate400 (s : List Char) : List Char :=
  if 400 < s.length then s.take 400 ++ ("...").toList else s

/-- `format_hit` from src/chatbot.py: strip the passage text, replace
newlines by spaces, truncate past 400 characters, and embed ordinal,
source and page in the display line. -/
def format_hit (hit : ℝ × Passage) (i : Nat) : List Char :=
  let p := hit.2
  let snippet := truncate400 (replaceNL (pyStrip p.text))
  natStr i ++ (". (").toList ++ p.source ++ (" â€¢ p.").toList
    ++ natStr p.page ++ (") ").toList ++ snippet

/-! ### Concrete inputs used by witnesses and counterexamples -/

/-- Example passage at position 0. -/
def exA : Passage := ⟨"a".toList, 1, "yield".toList⟩

/-- Example passage at position 1, with the same text as `exA`. -/
def exB : Passage := ⟨"b".toList, 1, "yield".toList⟩

/-- Example two-passage collection. -/
def exPs : List Passage := [exA, exB]

/-- Example query matching both passages. -/
def exQ : List Char := "yield".toList

/-! ### Lemmas about the index builder -/

/-- The token-set component of the `build_index` fold appends one token
set per passage, in order. -/
theorem foldl_ixStep_fst (ps : List Passage) :
    ∀ acc : List (Finset (List Char)) × (List Char → Nat),
      (ps.foldl ixStep acc).1 = acc.1 ++ ps.map (fun p => tokenSet p.text) := by
  induction ps with
  | nil => intro acc; simp
  | cons p ps ih =>
    intro acc
    simp only [List.foldl_cons, ih, ixStep, List.map_cons]
    simp

/-- The document-frequency component of the `build_index` fold counts,
for each token, the passages whose token set contains it. -/
theorem foldl_ixStep_snd (ps : List Passage) :
    ∀ (acc : List (Finset (List Char)) × (List Char → Nat)) (t : List Char),
      (ps.foldl ixStep acc).2 t
        = acc.2 t + ps.countP (fun p => decide (t ∈ tokenSet p.text)) := by
  induction ps with
  | nil => intro acc t; simp
  | cons p ps ih =>
    intro acc t
    simp only [List.foldl_cons, ih, List.countP_cons]
    unfold ixStep dfBump
    by_cases h : t ∈ tokenSet p.text
    · simp [h]
      omega
    · simp [h]

theorem build_index_doc_tokens (ps : List Passage) :
    (build_index ps).doc_tokens = ps.map (fun p => tokenSet p.text) := by
  unfold build_index
  simpa using foldl_ixStep_fst ps ([], fun _ => 0)

theorem build_index_N (ps : List Passage) : (build_index ps).N = ps.length := rfl

theorem build_index_df (ps : List Passage) (t : List Char) :
    (build_index ps).df t = ps.countP (fun p => decide (t ∈ tokenSet p.text)) := by
  unfold build_index
  simpa using foldl_ixStep_snd ps ([], fun _ => 0) t

/-! ### Claims C5, C1, C6 -/

/-- C5: for every passage collection, the built index holds one token
set per passage in the same order, with `tokenSets[i]` the distinct
tokens of `tokenize(passages[i].text)`, and
`len(tokenSets) = len(passages) = size`; the empty collection yields
size 0 and empty structures. -/
theorem C5_index_alignment (ps : List Passage) :
    (build_index ps).doc_tokens = ps.map (fun p => tokenSet p.text) ∧
    (build_index ps).doc_tokens.length = ps.length ∧
    (build_index ps).N = ps.length ∧
    (build_index ([] : List Passage)).doc_tokens = [] ∧
    (build_index ([] : List Passage)).N = 0 ∧
    (∀ t, (build_index ([] : List Passage)).df t = 0) := by
  refine ⟨build_index_doc_tokens ps, ?_, rfl, rfl, rfl, fun t => rfl⟩
  rw [build_index_doc_tokens]
  simp

/-- C1: against the index built from the collection, a passage whose
overlap set is non-empty scores the sum, over overlap tokens, of
`ln(1 + size / (1 + documentFrequency[t]))` with size the passage
count, and a passage with empty overlap scores exactly 0. -/
theorem C1_score_formula (q : List Char) (ps : List Passage) (i : Nat) :
    (overlap q (build_index ps) i ≠ ∅ →
      scoreOf q (build_index ps) i
        = (overlap q (build_index ps) i).sum
            (fun t => Real.log (1 + (ps.length : ℝ) / (1 + ((build_index ps).df t : ℝ))))) ∧
    (overlap q (build_index ps) i = ∅ → scoreOf q (build_index ps) i = 0) := by
  constructor
  · intro h
    rw [scoreOf, if_neg h]
    rfl
  · intro h
    rw [scoreOf, if_pos h]

theorem C1_score_formula_witness :
    overlap exQ (build_index exPs) 0 ≠ ∅ ∧
    scoreOf exQ (build_index exPs) 0
      = (overlap exQ (build_index exPs) 0).sum
          (fun t => Real.log (1 + (exPs.length : ℝ) / (1 + ((build_index exPs).df t : ℝ)))) :=
  ⟨by decide, (C1_score_formula exQ exPs 0).1 (by decide)⟩

/-- C6: an empty query token sequence or an empty passage collection
makes `retrieve` return the empty sequence, with no error. -/
theorem C6_empty_inputs (q : List Char) (ps : List Passage) (idx : Index) (k : Nat)
    (h : tokenize q = [] ∨ ps = []) : retrieve q ps idx k = [] := by
  unfold retrieve
  rcases h with h | h
  · by_cases hp : ps = [] <;> simp [hp, h]
  · simp [h]

theorem C6_empty_inputs_witness :
    (tokenize ("%!".toList) = [] ∨ exPs = []) ∧
    retrieve ("%!".toList) exPs (build_index exPs) 7 = [] :=
  ⟨Or.inl (by decide), C6_empty_inputs _ _ _ _ (Or.inl (by decide))⟩

/-! ### Claim C7: the tokenizer -/

/-- Specification of "the maximal runs of alphanumeric characters, in
order": separator characters are discarded, every run is non-empty,
wholly alphanumeric, and cannot be extended to the right. -/
inductive MaxRuns : List Char → List (List Char) → Prop
  | nil : MaxRuns [] []
  | sep (c : Char) (l : List Char) (ts : List (List Char)) :
      isAlnumAscii c = false → MaxRuns l ts → MaxRuns (c :: l) ts
  | run (t l : List Char) (ts : List (List Char)) :
      t ≠ [] → (∀ c ∈ t, isAlnumAscii c = true) →
      (∀ c l', l = c :: l' → isAlnumAscii c = false) →
      MaxRuns l ts → MaxRuns (t ++ l) (t :: ts)

/-- The scanner produces exactly the maximal-runs decomposition of its
input, prefixed with the run accumulated so far. -/
theorem tokensAux_maxRuns (l : List Char) :
    ∀ cur : List Char, (∀ c ∈ cur, isAlnumAscii c = true) →
      MaxRuns (cur.reverse ++ l) (tokensAux l cur) := by
  induction l with
  | nil =>
    intro cur hcur
    cases cur with
    | nil => simpa [tokensAux] using MaxRuns.nil
    | cons r rs =>
      have h1 : tokensAux [] (r :: rs) = [(r :: rs).reverse] := by simp [tokensAux]
      rw [h1, List.append_nil]
      have h2 := MaxRuns.run ((r :: rs).reverse) [] [] (by simp)
        (fun c hc => hcur c (List.mem_reverse.mp hc))
        (fun c l' h => by cases h) MaxRuns.nil
      simpa using h2
  | cons c cs ih =>
    intro cur hcur
    by_cases hc : isAlnumAscii c = true
    · have h1 : tokensAux (c :: cs) cur = tokensAux cs (c :: cur) := by
        simp [tokensAux, hc]
      rw [h1]
      have h2 := ih (c :: cur) (by
        intro x hx
        rcases List.mem_cons.mp hx with rfl | hx
        · exact hc
        · exact hcur x hx)
      simpa [List.append_assoc] using h2
    · rw [Bool.not_eq_true] at hc
      cases cur with
      | nil =>
        have h1 : tokensAux (c :: cs) [] = tokensAux cs [] := by
          simp [tokensAux, hc]
        rw [h1]
        exact MaxRuns.sep c cs _ hc (by simpa using ih [] (by simp))
      | cons r rs =>
        have h1 : tokensAux (c :: cs) (r :: rs) = (r :: rs).reverse :: tokensAux cs [] := by
          simp [tokensAux, hc]
        rw [h1]
        exact MaxRuns.run ((r :: rs).reverse) (c :: cs) _ (by simp)
          (fun x hx => hcur x (List.mem_reverse.mp hx))
          (fun x l' h => by
            obtain ⟨h1, h2⟩ := List.cons.inj h
            rw [← h1]
            exact hc)
          (MaxRuns.sep c cs _ hc (by simpa using ih [] (by simp)))

/-- C7: tokenize lowercases its input and returns exactly the maximal
alphanumeric runs in order; the spec's concrete example evaluates as
stated; wholly non-alphanumeric input yields the empty sequence. -/
theorem C7_tokenize_runs :
    (∀ s : List Char, MaxRuns (s.map lowerChar) (tokenize s)) ∧
    tokenize ("SIP-2024, 12%!".toList) = ["sip".toList, "2024".toList, "12".toList] ∧
    (∀ s : List Char, (∀ c ∈ s, isAlnumAscii (lowerChar c) = false) → tokenize s = []) := by
  refine ⟨?_, by decide, ?_⟩
  · intro s
    simpa using tokensAux_maxRuns (s.map lowerChar) [] (by simp)
  · intro s hs
    have key : ∀ l : List Char, (∀ c ∈ l, isAlnumAscii c = false) → tokensAux l [] = [] := by
      intro l
      induction l with
      | nil => intro _; simp [tokensAux]
      | cons c cs ih =>
        intro h
        simp [tokensAux, h c (List.mem_cons_self c cs),
          ih (fun x hx => h x (List.mem_cons_of_mem c hx))]
    exact key _ (by
      intro c hc
      obtain ⟨x, hx, rfl⟩ := List.mem_map.mp hc
      exact hs x hx)

theorem C7_tokenize_runs_witness :
    (∀ c ∈ ("?!".toList), isAlnumAscii (lowerChar c) = false) ∧
    tokenize ("?!".toList) = [] :=
  ⟨by decide, C7_tokenize_runs.2.2 _ (by decide)⟩

/-! ### Claim C3: the chunker -/

/-- Length of a Python range with positive step, by strong induction on
the distance from `start` to `stop`. -/
theorem pyRange_length_aux :
    ∀ (n start stop step : Nat), 0 < step → stop - start ≤ n →
      (pyRange start stop step).length
        = if start < stop then (stop - start - 1) / step + 1 else 0 := by
  intro n
  induction n with
  | zero =>
    intro start stop step hstep hle
    have h1 : ¬ start < stop := by omega
    rw [pyRange, dif_neg (by omega), if_neg h1]
    rfl
  | succ n ih =>
    intro start stop step hstep hle
    by_cases h : start < stop
    · rw [pyRange, dif_pos ⟨hstep, h⟩, if_pos h]
      simp only [List.length_cons]
      rw [ih (start + step) stop step hstep (by omega)]
      by_cases h2 : start + step < stop
      · rw [if_pos h2]
        have e1 : stop - (start + step) - 1 = stop - start - 1 - step := by omega
        have e2 : step ≤ stop - start - 1 := by omega
        rw [e1, Nat.div_eq (stop - start - 1) step, if_pos ⟨hstep, e2⟩]
      · rw [if_neg h2]
        have e3 : stop - start - 1 < step := by omega
        rw [Nat.div_eq_of_lt e3]
    · rw [pyRange, dif_neg (by omega), if_neg h]
      rfl

/-- `range(0, L, step)` has `ceil(L / step)` elements. -/
theorem pyRange_zero_length (L step : Nat) (hstep : 0 < step) :
    (pyRange 0 L step).length = (L + step - 1) / step := by
  rw [pyRange_length_aux L 0 L step hstep (by omega)]
  by_cases h : 0 < L
  · rw [if_pos h]
    simp only [Nat.sub_zero]
    have e1 : L + step - 1 = (L - 1) + step := by omega
    rw [e1, Nat.add_div_right _ hstep]
  · have hL : L = 0 := by omega
    subst hL
    rw [if_neg (by omega), Nat.div_eq_of_lt (by omega)]

/-- C3 as amended: for window size S and overlap O with O < S, the
chunker emits `ceil(L / (S - O))` chunks, where L is the length of the
whitespace-normalized text; in particular 0 chunks when L = 0 and
exactly 1 chunk when 0 < L ≤ S - O. -/
theorem C3_chunk_count (text : List Char) (S O : Nat) (h : O < S) :
    (_chunks text S O).length
      = ((normalize text).length + (S - O) - 1) / (S - O) ∧
    ((normalize text).length = 0 → (_chunks text S O).length = 0) ∧
    (0 < (normalize text).length → (normalize text).length ≤ S - O →
      (_chunks text S O).length = 1) := by
  have hstep : 0 < S - O := by omega
  have hmax : max 1 (S - O) = S - O := by omega
  have key : (_chunks text S O).length
      = ((normalize text).length + (S - O) - 1) / (S - O) := by
    unfold _chunks
    by_cases hemp : (normalize text).isEmpty
    · rw [if_pos hemp]
      have hL : (normalize text).length = 0 := by
        rw [List.isEmpty_iff] at hemp
        simp [hemp]
      rw [hL]
      rw [Nat.div_eq_of_lt (by omega)]
      rfl
    · rw [if_neg hemp, List.length_map, hmax,
        pyRange_zero_length _ _ hstep]
  refine ⟨key, ?_, ?_⟩
  · intro hL
    rw [key, hL, Nat.div_eq_of_lt (by omega)]
  · intro hL1 hL2
    rw [key]
    have e1 : (normalize text).length + (S - O) - 1
        = ((normalize text).length - 1) + (S - O) := by omega
    rw [e1, Nat.add_div_right _ hstep, Nat.div_eq_of_lt (by omega)]

theorem C3_chunk_count_witness :
    1 < 3 ∧ (normalize ("hello".toList)).length = 5 ∧
    (_chunks ("hello".toList) 3 1).length
      = ((normalize ("hello".toList)).length + (3 - 1) - 1) / (3 - 1) :=
  ⟨by decide, by decide, (C3_chunk_count ("hello".toList) 3 1 (by decide)).1⟩

/-- C3 as stated is false: on normalized text of length 3 with S = 3 and
O = 1 the code produces 2 chunks, while `ceil((L - O) / (S - O))` is 1
(and L ≤ S would demand exactly 1 chunk). -/
theorem C3_counterexample :
    (normalize ("abc".toList)).length = 3 ∧
    (_chunks ("abc".toList) 3 1).length = 2 ∧
    ((3 : Nat) - 1 + ((3 - 1) - 1)) / (3 - 1) = 1 ∧
    (3 : Nat) ≤ 3 ∧ (2 : Nat) ≠ 1 := by
  refine ⟨by decide, ?_, by decide, by decide, by decide⟩
  have h1 : normalize ("abc".toList) = "abc".toList := by decide
  have h2 : pyRange 0 3 2 = [0, 2] := by simp [pyRange]
  unfold _chunks
  rw [h1]
  simp [h2]

/-! ### Lemmas about stripping -/

/-- The first element surviving `dropWhile` fails the predicate. -/
theorem dropWhile_head_false (p : Char → Bool) :
    ∀ (l : List Char) (c : Char) (cs : List Char),
      l.dropWhile p = c :: cs → p c = false := by
  intro l
  induction l with
  | nil => intro c cs h; cases h
  | cons a t ih =>
    intro c cs h
    rw [List.dropWhile_cons] at h
    by_cases ha : p a = true
    · rw [if_pos ha] at h
      exact ih c cs h
    · rw [if_neg ha] at h
      obtain ⟨h1, _⟩ := List.cons.inj h
      rw [← h1]
      exact Bool.not_eq_true _ |>.mp ha

/-- A list whose head fails the predicate is fixed by `dropWhile`. -/
theorem dropWhile_eq_self_of_head (p : Char → Bool) (l : List Char)
    (h : ∀ c cs, l = c :: cs → p c = false) : l.dropWhile p = l := by
  cases l with
  | nil => rfl
  | cons c cs => rw [List.dropWhile_cons, if_neg (by simp [h c cs rfl])]

/-- `dropWhile` keeps the last element when its result is non-empty. -/
theorem getLast?_dropWhile (p : Char → Bool) :
    ∀ l : List Char, l.dropWhile p ≠ [] →
      (l.dropWhile p).getLast? = l.getLast? := by
  intro l
  induction l with
  | nil => intro h; cases h rfl
  | cons a t ih =>
    intro h
    rw [List.dropWhile_cons] at h ⊢
    by_cases ha : p a = true
    · rw [if_pos ha] at h ⊢
      cases t with
      | nil => cases h rfl
      | cons b t' =>
        rw [ih h, List.getLast?_cons_cons]
    · rw [if_neg ha]

/-- A list has no whitespace at either end. -/
def Stripped (l : List Char) : Prop :=
  (∀ c cs, l = c :: cs → isSpaceChar c = false) ∧
  (∀ c, l.getLast? = some c → isSpaceChar c = false)

/-- The result of `str.strip` has no whitespace at either end. -/
theorem stripped_pyStrip (l : List Char) : Stripped (pyStrip l) := by
  unfold pyStrip
  constructor
  · intro c cs h
    have h0 : ((((l.dropWhile isSpaceChar).reverse.dropWhile isSpaceChar)).reverse).head?
        = some c := by rw [h]; rfl
    rw [List.head?_reverse] at h0
    have hne : (l.dropWhile isSpaceChar).reverse.dropWhile isSpaceChar ≠ [] := by
      intro hcon
      rw [hcon] at h0
      cases h0
    rw [getLast?_dropWhile _ _ hne, List.getLast?_reverse] at h0
    cases hd : l.dropWhile isSpaceChar with
    | nil => rw [hd] at h0; cases h0
    | cons x xs =>
      rw [hd] at h0
      have hx : x = c := by
        simpa using h0
      rw [← hx]
      exact dropWhile_head_false _ l x xs hd
  · intro c h
    rw [List.getLast?_reverse] at h
    cases hd : (l.dropWhile isSpaceChar).reverse.dropWhile isSpaceChar with
    | nil => rw [hd] at h; cases h
    | cons x xs =>
      rw [hd] at h
      have hx : x = c := by simpa using h
      rw [← hx]
      exact dropWhile_head_false _ _ x xs hd

/-- `str.strip` fixes a list with no whitespace at either end. -/
theorem pyStrip_eq_self (l : List Char) (h : Stripped l) : pyStrip l = l := by
  unfold pyStrip
  rw [dropWhile_eq_self_of_head _ l h.1]
  have h2 : l.reverse.dropWhile isSpaceChar = l.reverse := by
    apply dropWhile_eq_self_of_head
    intro c cs hc
    have h0 : l.reverse.head? = some c := by rw [hc]; rfl
    rw [List.head?_reverse] at h0
    exact h.2 c h0
  rw [h2, List.reverse_reverse]

/-- Stripping is idempotent. -/
theorem pyStrip_idem (l : List Char) : pyStrip (pyStrip l) = pyStrip l :=
  pyStrip_eq_self _ (stripped_pyStrip l)

/-! ### Claim C8: the passage extractor -/

/-- C8: every passage emitted by the extractor stores a trimmed chunk —
its text is fixed by trimming and non-empty — and a 1-based page
number, for every folder contents and page-extraction outcome. -/
theorem C8_passage_invariants (docs : List DocEntry) (p : Passage)
    (hp : p ∈ load_pdf_passages docs) :
    pyStrip p.text = p.text ∧ p.text ≠ [] ∧ 1 ≤ p.page := by
  unfold load_pdf_passages at hp
  obtain ⟨d, _, hpd⟩ := List.mem_flatMap.mp hp
  unfold docPassages at hpd
  rcases hpg : d.pages with _ | pgs
  · rw [hpg] at hpd
    cases hpd
  · rw [hpg] at hpd
    obtain ⟨ip, _, hppp⟩ := List.mem_flatMap.mp hpd
    unfold pagePassages at hppp
    obtain ⟨c, hc, rfl⟩ := List.mem_map.mp hppp
    have hcf := List.mem_filter.mp hc
    have hne : pyStrip c ≠ [] := by
      have h2 := hcf.2
      simpa [List.isEmpty_iff] using h2
    exact ⟨pyStrip_idem c, hne, by simp⟩

/-- Concrete folder contents used by the C8 witness. -/
def exDocs : List DocEntry := [⟨"a.pdf".toList, some [some ("hi".toList)]⟩]

/-- The passage the extractor builds from `exDocs`. -/
def exP : Passage := ⟨"a.pdf".toList, 1, "hi".toList⟩

/-- The chunker on the two-character page text yields that text. -/
theorem chunks_hi : _chunks ("hi".toList) 800 100 = ["hi".toList] := by
  have h1 : pyRange 0 2 700 = [0] := by simp [pyRange]
  have h2 : normalize ("hi".toList) = "hi".toList := by decide
  simp only [_chunks, h2]
  rw [show ("hi".toList).length = 2 from rfl, show (max 1 (800 - 100)) = 700 from rfl,
    if_neg (by decide), h1]
  decide

/-- The extractor on `exDocs` emits exactly `exP`. -/
theorem load_exDocs : load_pdf_passages exDocs = [exP] := by
  unfold load_pdf_passages
  rw [show exDocs.filter (fun d => (".pdf".toList).isSuffixOf (d.name.map lowerChar))
      = exDocs by decide]
  unfold exDocs docPassages
  simp only [List.flatMap_cons, List.flatMap_nil, List.append_nil]
  rw [show ([some ("hi".toList)] : List (Option (List Char))).enum
      = [(0, some ("hi".toList))] from rfl]
  simp only [List.flatMap_cons, List.flatMap_nil, List.append_nil]
  unfold pagePassages
  rw [show (some ("hi".toList)).getD [] = "hi".toList from rfl, chunks_hi]
  decide

theorem C8_passage_invariants_witness :
    exP ∈ load_pdf_passages exDocs ∧
    (pyStrip exP.text = exP.text ∧ exP.text ≠ [] ∧ 1 ≤ exP.page) :=
  ⟨by rw [load_exDocs]; exact List.mem_singleton.mpr rfl,
   C8_passage_invariants exDocs exP (by rw [load_exDocs]; exact List.mem_singleton.mpr rfl)⟩

/-! ### Claim C9: the result formatter -/

/-- `dropWhile` commutes with a map that preserves the predicate. -/
theorem dropWhile_map_comm (f : Char → Char) (p : Char → Bool)
    (hf : ∀ c, p (f c) = p c) :
    ∀ l : List Char, (l.map f).dropWhile p = (l.dropWhile p).map f := by
  intro l
  induction l with
  | nil => rfl
  | cons c cs ih =>
    rw [List.map_cons, List.dropWhile_cons, List.dropWhile_cons, hf c]
    by_cases hc : p c = true
    · rw [if_pos hc, if_pos hc, ih]
    · rw [if_neg hc, if_neg hc, List.map_cons]

/-- Replacing newlines by spaces commutes with stripping: the source
strips first and replaces second, the spec describes the opposite
order, and the two agree. -/
theorem pyStrip_replaceNL (t : List Char) :
    pyStrip (replaceNL t) = replaceNL (pyStrip t) := by
  have hf : ∀ c : Char, isSpaceChar (if c = '\n' then ' ' else c) = isSpaceChar c := by
    intro c
    by_cases hc : c = '\n'
    · rw [if_pos hc, hc]
      decide
    · rw [if_neg hc]
  unfold pyStrip replaceNL
  rw [dropWhile_map_comm _ _ hf, ← List.map_reverse, dropWhile_map_comm _ _ hf,
    ← List.map_reverse]

/-- C9: `format_hit` returns the line embedding the ordinal, source
name, page number and the snippet obtained by replacing newlines with
spaces, trimming, and — past 400 characters — truncating to the first
400 with the marker appended; it is a total function of its inputs. -/
theorem C9_format_hit (hit : ℝ × Passage) (i : Nat) :
    format_hit hit i
      = natStr i ++ (". (").toList ++ hit.2.source ++ (" â€¢ p.").toList
        ++ natStr hit.2.page ++ (") ").toList
        ++ (if 400 < (pyStrip (replaceNL hit.2.text)).length
            then (pyStrip (replaceNL hit.2.text)).take 400 ++ ("...").toList
            else pyStrip (replaceNL hit.2.text)) := by
  unfold format_hit truncate400
  rw [pyStrip_replaceNL]

/-! ### Lemmas about ranking -/

/-- Indices in the scored list are pairwise distinct. -/
theorem scoredList_snd_ne (q : List Char) (idx : Index) :
    List.Pairwise (fun a b : ℝ × Nat => a.2 ≠ b.2) (scoredList q idx) := by
  unfold scoredList
  rw [List.pairwise_map]
  simpa using List.nodup_range idx.N

/-- The sorted scored list still has pairwise distinct indices. -/
theorem sortDesc_snd_ne (q : List Char) (idx : Index) :
    List.Pairwise (fun a b : ℝ × Nat => a.2 ≠ b.2) (sortDesc (scoredList q idx)) := by
  have hperm : List.Perm (sortDesc (scoredList q idx)) (scoredList q idx) :=
    List.perm_insertionSort descLex _
  exact (hperm.pairwise_iff (fun h => Ne.symm h)).mpr (scoredList_snd_ne q idx)

/-- Every pair of the ranked list is ordered by `descLex` and has
distinct indices. -/
theorem pairwise_rankedIdx (q : List Char) (idx : Index) (k : Nat) :
    List.Pairwise (fun a b : ℝ × Nat => descLex a b ∧ a.2 ≠ b.2)
      (rankedIdx q idx k) := by
  have hs : List.Pairwise descLex (sortDesc (scoredList q idx)) :=
    List.sorted_insertionSort descLex _
  have hand := hs.and (sortDesc_snd_ne q idx)
  have hsub : List.Sublist (rankedIdx q idx k) (sortDesc (scoredList q idx)) := by
    unfold rankedIdx
    exact (List.filter_sublist _).trans (List.take_sublist _ _)
  exact hand.sublist hsub

/-! ### Claim C2: the tie-break -/

/-- C2 as amended: when two passages receive equal scores, the returned
ordering places the passage with the LARGER original position first —
`sort(reverse=True)` over `(score, index)` tuples compares tied scores
by index, descending — and the returned hits are exactly the ranked
`(score, index)` pairs mapped onto the passage list. -/
theorem C2_tiebreak_descending (q : List Char) (ps : List Passage) (k : Nat) :
    List.Pairwise (fun a b : ℝ × Nat => a.1 = b.1 → b.2 < a.2)
      (rankedIdx q (build_index ps) k) ∧
    (ps ≠ [] → tokenize q ≠ [] →
      retrieve q ps (build_index ps) k
        = (rankedIdx q (build_index ps) k).map
            (fun x => (x.1, ps.getD x.2 ⟨[], 0, []⟩))) := by
  constructor
  · refine (pairwise_rankedIdx q (build_index ps) k).imp ?_
    intro a b hab heq
    obtain ⟨hlex, hne⟩ := hab
    rcases hlex with h | ⟨_, h2⟩
    · exact absurd (heq ▸ h) (lt_irrefl _)
    · exact lt_of_le_of_ne h2 (fun hc => hne hc.symm)
  · intro h1 h2
    unfold retrieve
    rw [if_neg h1, if_neg h2]

theorem C2_tiebreak_descending_witness :
    exPs ≠ [] ∧ tokenize exQ ≠ [] ∧
    retrieve exQ exPs (build_index exPs) 5
      = (rankedIdx exQ (build_index exPs) 5).map
          (fun x => (x.1, exPs.getD x.2 ⟨[], 0, []⟩)) :=
  ⟨by decide, by decide, (C2_tiebreak_descending exQ exPs 5).2 (by decide) (by decide)⟩

/-! ### Concrete evaluation of `retrieve` on the example collection -/

/-- Both example passages hold token "yield", so its document frequency
is 2. -/
theorem ex_df : (build_index exPs).df ("yield".toList) = 2 := by decide

theorem ex_score0 : scoreOf exQ (build_index exPs) 0 = Real.log (5 / 3) := by
  have hov : overlap exQ (build_index exPs) 0 = {"yield".toList} := by decide
  rw [scoreOf, hov, if_neg (by decide), Finset.sum_singleton]
  unfold idfLite
  rw [ex_df, build_index_N, show exPs.length = 2 from rfl]
  congr 1
  norm_num

theorem ex_score1 : scoreOf exQ (build_index exPs) 1 = Real.log (5 / 3) := by
  have hov : overlap exQ (build_index exPs) 1 = {"yield".toList} := by decide
  rw [scoreOf, hov, if_neg (by decide), Finset.sum_singleton]
  unfold idfLite
  rw [ex_df, build_index_N, show exPs.length = 2 from rfl]
  congr 1
  norm_num

theorem ex_scoredList :
    scoredList exQ (build_index exPs)
      = [(Real.log (5 / 3), 0), (Real.log (5 / 3), 1)] := by
  unfold scoredList
  rw [build_index_N, show exPs.length = 2 from rfl,
    show List.range 2 = [0, 1] from rfl]
  simp [ex_score0, ex_score1]

theorem ex_sort :
    sortDesc [(Real.log (5 / 3), 0), (Real.log (5 / 3), 1)]
      = [(Real.log (5 / 3), 1), (Real.log (5 / 3), 0)] := by
  have hnot : ¬ descLex (Real.log (5 / 3), 0) (Real.log (5 / 3), 1) := by
    intro h
    rcases h with h | ⟨_, h2⟩
    · exact lt_irrefl _ h
    · exact absurd h2 (by omega)
  unfold sortDesc
  simp only [List.insertionSort, List.orderedInsert]
  rw [if_neg hnot]

theorem ex_pos : (0 : ℝ) < Real.log (5 / 3) := Real.log_pos (by norm_num)

theorem ex_rankedIdx :
    rankedIdx exQ (build_index exPs) 5
      = [(Real.log (5 / 3), 1), (Real.log (5 / 3), 0)] := by
  unfold rankedIdx
  rw [ex_scoredList, ex_sort,
    show ([(Real.log (5 / 3), 1), (Real.log (5 / 3), 0)] : List (ℝ × Nat)).take 5
      = [(Real.log (5 / 3), 1), (Real.log (5 / 3), 0)] from rfl]
  have hd : decide ((Real.log (5 / 3)) ≤ 0) = false :=
    decide_eq_false (not_le.mpr ex_pos)
  simp [List.filter, hd]

/-- The fully evaluated retrieval on the example: the position-1 passage
comes back first. -/
theorem ex_retrieve :
    retrieve exQ exPs (build_index exPs) 5
      = [(Real.log (5 / 3), exB), (Real.log (5 / 3), exA)] := by
  unfold retrieve
  rw [if_neg (by decide), if_neg (by decide), ex_rankedIdx]
  simp [exPs]

/-- C2 as stated is false: on the example collection both passages score
`log(5/3)`, yet the passage at original position 1 is returned before
the passage at original position 0. -/
theorem C2_counterexample :
    scoreOf exQ (build_index exPs) 0 = scoreOf exQ (build_index exPs) 1 ∧
    exA ≠ exB ∧
    retrieve exQ exPs (build_index exPs) 5
      = [(Real.log (5 / 3), exB), (Real.log (5 / 3), exA)] :=
  ⟨ex_score0.trans ex_score1.symm, by decide, ex_retrieve⟩

/-! ### Claim C4: the returned top-k -/

/-- C4: the retriever returns at most k hits, ordered by score highest
first, and never a hit with score ≤ 0 — a zero score is dropped even
when fewer than k positive-score passages exist. -/
theorem C4_topk (q : List Char) (ps : List Passage) (k : Nat) :
    (retrieve q ps (build_index ps) k).length ≤ k ∧
    List.Sorted (fun a b : ℝ => b ≤ a)
      ((retrieve q ps (build_index ps) k).map Prod.fst) ∧
    (∀ x ∈ retrieve q ps (build_index ps) k, 0 < x.1) := by
  unfold retrieve
  by_cases h1 : ps = []
  · rw [if_pos h1]
    exact ⟨by simp, by simp [List.Sorted], by simp⟩
  rw [if_neg h1]
  by_cases h2 : tokenize q = []
  · rw [if_pos h2]
    exact ⟨by simp, by simp [List.Sorted], by simp⟩
  rw [if_neg h2]
  refine ⟨?_, ?_, ?_⟩
  · rw [List.length_map]
    unfold rankedIdx
    refine le_trans (List.length_filter_le _ _) ?_
    rw [List.length_take]
    exact min_le_left _ _
  · rw [List.map_map]
    have he : (Prod.fst ∘ fun x : ℝ × Nat => ((x.1 : ℝ), ps.getD x.2 ⟨[], 0, []⟩))
        = fun x : ℝ × Nat => x.1 := rfl
    rw [he]
    refine List.pairwise_map.mpr ?_
    refine (pairwise_rankedIdx q (build_index ps) k).imp ?_
    intro a b hab
    obtain ⟨hlex, _⟩ := hab
    rcases hlex with h | ⟨h, _⟩
    · exact le_of_lt h
    · exact le_of_eq h.symm
  · intro x hx
    obtain ⟨y, hy, rfl⟩ := List.mem_map.mp hx
    unfold rankedIdx at hy
    have hf := (List.mem_filter.mp hy).2
    simp only [Bool.not_eq_true', decide_eq_false_iff_not, not_le] at hf
    exact hf

theorem C4_topk_witness :
    (retrieve exQ exPs (build_index exPs) 5).length ≤ 5 ∧
    (Real.log (5 / 3), exB) ∈ retrieve exQ exPs (build_index exPs) 5 ∧
    0 < (Real.log (5 / 3), exB).1 :=
  ⟨(C4_topk exQ exPs 5).1,
   by rw [ex_retrieve]; exact List.mem_cons_self _ _,
   (C4_topk exQ exPs 5).2.2 _ (by rw [ex_retrieve]; exact List.mem_cons_self _ _)⟩

/-! ### Claim C10: access safety -/

/-- C10: with the index built from the same collection handed to
`retrieve`, every index into the token-set list and into the passage
list that `retrieve` performs is strictly below the collection length,
and the document-frequency lookup of every token of a passage's token
set is at least 1, so no access can fail. -/
theorem C10_access_safety (ps : List Passage) (q : List Char) (k : Nat) :
    (∀ i ∈ List.range (build_index ps).N,
        i < (build_index ps).doc_tokens.length ∧ i < ps.length) ∧
    (∀ x ∈ (sortDesc (scoredList q (build_index ps))).take k, x.2 < ps.length) ∧
    (∀ i, i < ps.length →
      ∀ t ∈ (build_index ps).doc_tokens.getD i ∅, 1 ≤ (build_index ps).df t) := by
  have hlen : (build_index ps).doc_tokens.length = ps.length := by
    rw [build_index_doc_tokens]
    simp
  refine ⟨?_, ?_, ?_⟩
  · intro i hi
    rw [List.mem_range, build_index_N] at hi
    exact ⟨by rw [hlen]; exact hi, hi⟩
  · intro x hx
    have hx1 := List.mem_of_mem_take hx
    have hx2 : x ∈ scoredList q (build_index ps) :=
      (List.perm_insertionSort descLex _).mem_iff.mp hx1
    unfold scoredList at hx2
    obtain ⟨i, hi, rfl⟩ := List.mem_map.mp hx2
    rw [List.mem_range, build_index_N] at hi
    exact hi
  · intro i hi t ht
    have hdt : (build_index ps).doc_tokens.getD i ∅ = tokenSet ps[i].text := by
      rw [build_index_doc_tokens, List.getD_eq_getElem?_getD, List.getElem?_map,
        List.getElem?_eq_getElem hi]
      rfl
    rw [hdt] at ht
    rw [build_index_df]
    have hp : 0 < ps.countP (fun p => decide (t ∈ tokenSet p.text)) :=
      List.countP_pos_iff.mpr ⟨ps[i], List.getElem_mem hi, decide_eq_true ht⟩
    omega

theorem C10_access_safety_witness :
    (0 ∈ List.range (build_index exPs).N ∧ 0 < exPs.length) ∧
    ("yield".toList ∈ (build_index exPs).doc_tokens.getD 0 ∅ ∧
      1 ≤ (build_index exPs).df ("yield".toList)) :=
  ⟨⟨by decide, ((C10_access_safety exPs exQ 5).1 0 (by decide)).2⟩,
   ⟨by decide, (C10_access_safety exPs exQ 5).2.2 0 (by decide) _ (by decide)⟩⟩

end FinanceBot
